import Mathlib

/-!
Verification of the NPG-Lite firmware core: sample encoding, battery
estimation, command processing, connection lifecycle and the acquisition
cycle, shallowly embedded from the C sources (main.c, gatt.c, gap.c).
-/

namespace NPG

/-! Constants from main.c. -/

def SAMPLING_RATE : ℕ := 250

def PACKET_LEN : ℕ := 25

def NUM_CHANNELS : ℕ := 4

def SAMPLE_SIZE : ℕ := (NUM_CHANNELS - 1) * 2 + 1

def PACKET_SIZE : ℕ := PACKET_LEN * SAMPLE_SIZE

/-- Platform constant: bytes per conversion result slot on the target SoC
(ESP32-C6, ADC_DIGI_OUTPUT_FORMAT_TYPE2 uses 4-byte slots). -/
def SOC_ADC_DIGI_RESULT_BYTES : ℕ := 4

def CONV_FRAME_SIZE : ℕ := NUM_CHANNELS * PACKET_LEN * SOC_ADC_DIGI_RESULT_BYTES

/-- The channel rescale macro from main.c: MAP(X) = ((X) * 4095 / 3329),
C unsigned integer division. -/
def MAP (x : ℕ) : ℕ := x * 4095 / 3329

/-- Truncation to a C uint16_t, as in the assignment to adc_reading. -/
def u16 (x : ℕ) : ℕ := x % 65536

/-! Neopixel hue constants from neopixel.h. -/

def RED : ℕ := 240

def GREEN : ℕ := 120

def BLUE : ℕ := 0

/-! Sample encoder: the packet-building loop body of adc_conv_task.
A conversion frame is modelled as the list of parsed type2.data fields, in
buffer order; entry for tick j, channel i sits at index (i + j * NUM_CHANNELS). -/

/-- One 7-byte packet row: the stamped counter byte followed by the three
channel values, each MAP-rescaled, truncated to uint16_t, big-endian. -/
def buildRow (c : ℕ) (data : ℕ → ℕ) : List ℕ :=
  [c % 256,
   u16 (MAP (data 0)) / 256 % 256, u16 (MAP (data 0)) % 256,
   u16 (MAP (data 1)) / 256 % 256, u16 (MAP (data 1)) % 256,
   u16 (MAP (data 2)) / 256 % 256, u16 (MAP (data 2)) % 256]

/-- The 25 rows written into chords_packet for one cycle, starting at rolling
counter value c (stamped modulo 256, incremented once per row). -/
def buildPacket (c : ℕ) (frame : List ℕ) : List (List ℕ) :=
  (List.range PACKET_LEN).map
    (fun j => buildRow (c + j) (fun i => frame.getD (i + j * NUM_CHANNELS) 0))

/-- Flat byte sequence of a packet, the unit handed to the notify primitive. -/
def packetBytes : List (List ℕ) → List ℕ
  | [] => []
  | r :: rs => r ++ packetBytes rs

/-- The accumulated battery reading of one cycle: channel index 3 of each of
the 25 ticks, doubled before MAP, truncated to uint16_t, summed, then divided
by PACKET_LEN (C signed integer division on non-negative values). -/
def batteryReading (frame : List ℕ) : ℕ :=
  (((List.range PACKET_LEN).map
      (fun j => u16 (MAP (2 * frame.getD (3 + j * NUM_CHANNELS) 0)))).sum) / PACKET_LEN

/-- Sequence byte of row j of a packet (rows are 7-byte lists). -/
def pktRowHead (p : List (List ℕ)) (j : ℕ) : ℕ := (p.getD j []).getD 0 0

/-- The sequence bytes of the rows of one packet, in order. -/
def pktHeads (p : List (List ℕ)) : List ℕ := p.map (fun r => r.getD 0 0)

/-- The sequence bytes of a list of packets, concatenated in emission order. -/
def packetsHeads : List (List (List ℕ)) → List ℕ
  | [] => []
  | p :: ps => pktHeads p ++ packetsHeads ps

/-- The length-n run of consecutive mod-256 counters starting at c. -/
def seqFrom : ℕ → ℕ → List ℕ
  | _, 0 => []
  | c, n + 1 => c % 256 :: seqFrom (c + 1) n

/-! Battery estimator, from battery_check in main.c.  The float arithmetic of
the C source is embedded over the exact rationals. -/

/-- The 21-anchor (voltage, percent) lookup table batt_table. -/
def batt_table : List (ℚ × ℕ) :=
  [(327/100, 0), (361/100, 5), (369/100, 10), (371/100, 15), (373/100, 20),
   (375/100, 25), (377/100, 30), (379/100, 35), (380/100, 40), (382/100, 45),
   (384/100, 50), (385/100, 55), (387/100, 60), (391/100, 65), (395/100, 70),
   (398/100, 75), (402/100, 80), (408/100, 85), (411/100, 90), (415/100, 95),
   (420/100, 100)]

/-- Cell voltage derived from the averaged raw reading:
(battery_reading / 4095.0) * 3.3 - 0.14. -/
def battery_voltage (reading : ℕ) : ℚ :=
  (reading : ℚ) / 4095 * (33/10) - 14/100

/-- Linear interpolation inside one table segment followed by the
(uint8_t) cast of the C source, which truncates the non-negative float. -/
def interpSeg (v v1 v2 : ℚ) (p1 p2 : ℕ) : ℕ :=
  (⌊(p1 : ℚ) + (v - v1) * ((p2 : ℚ) - (p1 : ℚ)) / (v2 - v1)⌋).toNat

/-- The interpolation search loop of battery_check: the first adjacent pair
(v1, p1), (v2, p2) with v1 <= voltage <= v2 wins; if none matches, percent
keeps its initialisation value 0. -/
def battLoop (v : ℚ) : List (ℚ × ℕ) → ℕ
  | (v1, p1) :: (v2, p2) :: rest =>
      if v1 ≤ v ∧ v ≤ v2 then interpSeg v v1 v2 p1 p2
      else battLoop v ((v2, p2) :: rest)
  | _ => 0

/-- The voltage-to-percent computation of battery_check: clamp below the first
anchor, clamp above the last anchor, otherwise run the interpolation loop. -/
def battery_percent (v : ℚ) : ℕ :=
  if v < (batt_table.getD 0 (0, 0)).1 then (batt_table.getD 0 (0, 0)).2
  else if v > (batt_table.getD (batt_table.length - 1) (0, 0)).1 then
    (batt_table.getD (batt_table.length - 1) (0, 0)).2
  else battLoop v batt_table

/-! Shared device state.  streaming is the process-wide flag of gap.c;
pixels models the LED sink (index maps to the last (hue, brightness) written);
bleRunning and adcRunning record whether nimble_port_stop and
adc_continuous_stop have been called; advertising records a pending
start_advertising. -/

@[ext]
structure Sys where
  streaming : Bool
  counter : ℕ
  bleRunning : Bool
  adcRunning : Bool
  advertising : Bool
  pixels : ℕ → ℕ × ℕ

/-- set_pixel(index, hue, brightness) on the LED sink. -/
def set_pixel (idx hue bright : ℕ) (s : Sys) : Sys :=
  { s with pixels := Function.update s.pixels idx (hue, bright) }

/-- battery_check from main.c: derive the percentage and, below the fixed 5%
threshold, light pixel 5 red, stop the BLE host and stop continuous ADC
sampling.  Note that the C function never writes the streaming flag. -/
def battery_check (reading : ℕ) (s : Sys) : Sys :=
  if battery_percent (battery_voltage reading) < 5 then
    { set_pixel 5 RED 10 s with bleRunning := false, adcRunning := false }
  else s

/-! Command processor: the WRITE branch of gatt_svr_chr_access_cb in gatt.c. -/

/-- ASCII toupper as applied byte-wise by the handler. -/
def c_toupper (c : ℕ) : ℕ := if 97 ≤ c ∧ c ≤ 122 then c - 32 else c

/-- ASCII byte values of a Lean string literal. -/
def strBytes (s : String) : List ℕ := s.toList.map Char.toNat

/-- The uppercased payload bytes. -/
def upBytes (p : List ℕ) : List ℕ := p.map c_toupper

/-- The 20-byte local command buffer after the memcpy (truncated to 19 bytes),
the uppercase loop and the null terminator: uppercased payload bytes followed
by the remaining zero initialisation. -/
def cmd_buffer (p : List ℕ) : List ℕ :=
  (p.take 19).map c_toupper ++ List.replicate (20 - min p.length 19) 0

structure WriteResult where
  streaming : Bool
  response : String
  pixel : Option (ℕ × ℕ × ℕ)

/-- The command decode of the WRITE branch: strncmp prefix matches tried in
source order (START, STOP, WHORU, STATUS), with the default response
UNKNOWN COMMAND.  Patterns contain no NUL and are compared over exactly
strlen(pattern) bytes, so each strncmp test is a take-equality on the
zero-padded command buffer. -/
def gatt_write (streaming : Bool) (p : List ℕ) : WriteResult :=
  let cmd := cmd_buffer p
  if cmd.take 5 = strBytes "START" then ⟨true, "RUNNING", some (0, BLUE, 10)⟩
  else if cmd.take 4 = strBytes "STOP" then ⟨false, "STOPPED", some (0, GREEN, 10)⟩
  else if cmd.take 5 = strBytes "WHORU" then ⟨streaming, "NPG-LITE", none⟩
  else if cmd.take 6 = strBytes "STATUS" then
    ⟨streaming, if streaming then "RUNNING" else "STOPPED", none⟩
  else ⟨streaming, "UNKNOWN COMMAND", none⟩

/-- copy_len of the WRITE branch: (om_len < 19) ? om_len : 19. -/
def copy_len (om_len : ℕ) : ℕ := if om_len < 19 then om_len else 19

/-- Every index of the 20-byte cmd_buffer that the WRITE branch reads or
writes, as a function of the payload length om_len: the memcpy destination
indices, the toupper loop indices (the loop bound is om_len, not copy_len),
and the null-terminator index om_len. -/
def cmd_write_indices (om_len : ℕ) : List ℕ :=
  List.range (copy_len om_len) ++ List.range om_len ++ [om_len]

/-! Event-level model: the acquisition cycle of adc_conv_task, control writes,
and the disconnect case of gap_event_handler, acting on the shared state. -/

/-- One wake-up of adc_conv_task: the status and returned size of
adc_continuous_read plus the parsed data fields of the frame buffer. -/
structure CycleInput where
  retOk : Bool
  sizeRet : ℕ
  frame : List ℕ

inductive Event where
  | cycle (inp : CycleInput)
  | write (payload : List ℕ)
  | disconnect

/-- One step of the system: a conversion-complete wake-up (processed only
while the streaming flag is set and the ADC is running), a control-channel
write, or a link-loss event.  Returns the new state, the packet handed to the
notify primitive (if any), and the notified ASCII response (if any). -/
def sysStep (s : Sys) (e : Event) : Sys × Option (List (List ℕ)) × Option String :=
  match e with
  | .cycle inp =>
      if s.streaming = true ∧ s.adcRunning = true then
        if inp.retOk = true ∧ inp.sizeRet = CONV_FRAME_SIZE then
          let pkt := buildPacket s.counter inp.frame
          let s1 := battery_check (batteryReading inp.frame)
            { s with counter := (s.counter + PACKET_LEN) % 256 }
          (s1, some pkt, none)
        else (s, none, none)
      else (s, none, none)
  | .write p =>
      let r := gatt_write s.streaming p
      (match r.pixel with
       | some (i, h, b) => set_pixel i h b { s with streaming := r.streaming }
       | none => { s with streaming := r.streaming },
       none, some r.response)
  | .disconnect =>
      ({ set_pixel 0 RED 10 s with streaming := false, advertising := true },
       none, none)

/-- Run a list of events, collecting the emitted packets in order. -/
def runTrace (s : Sys) : List Event → Sys × List (List (List ℕ))
  | [] => (s, [])
  | e :: es =>
      let r := sysStep s e
      let rest := runTrace r.1 es
      (rest.1, r.2.1.toList ++ rest.2)

/-! Generic list helpers. -/

lemma getD_map_range {α : Type} (f : ℕ → α) {n j : ℕ} (h : j < n) (d : α) :
    ((List.range n).map f).getD j d = f j := by
  rw [List.getD_eq_getElem?_getD]
  simp [h]

lemma packetBytes_length (p : List (List ℕ)) (h : ∀ r ∈ p, r.length = SAMPLE_SIZE) :
    (packetBytes p).length = SAMPLE_SIZE * p.length := by
  induction p with
  | nil => simp [packetBytes]
  | cons r rs ih =>
      simp only [packetBytes, List.length_append, List.length_cons]
      rw [h r (by simp), ih (fun q hq => h q (by simp [hq]))]
      ring

/-! Sample-encoder lemmas. -/

lemma buildPacket_row (c : ℕ) (frame : List ℕ) {j : ℕ} (hj : j < PACKET_LEN) :
    (buildPacket c frame).getD j [] =
      buildRow (c + j) (fun i => frame.getD (i + j * NUM_CHANNELS) 0) :=
  getD_map_range _ hj _

lemma buildRow_length (c : ℕ) (d : ℕ → ℕ) : (buildRow c d).length = SAMPLE_SIZE := rfl

lemma buildPacket_length (c : ℕ) (frame : List ℕ) :
    (buildPacket c frame).length = PACKET_LEN := by
  simp [buildPacket]

lemma mem_buildPacket_length (c : ℕ) (frame : List ℕ) {r : List ℕ}
    (h : r ∈ buildPacket c frame) : r.length = SAMPLE_SIZE := by
  obtain ⟨j, _, rfl⟩ := List.mem_map.mp h
  rfl

/-- C1: for a correctly sized conversion frame read while streaming, the
cycle hands exactly the built packet to the notify primitive; the packet has
25 rows of 7 bytes (175 bytes in all), row j opens with the rolling counter
value (consecutive mod 256 across rows), and each channel value is the
MAP-rescaled raw code, clamped to 16 bits, stored big-endian. -/
theorem c1_sample_encoder (s : Sys) (inp : CycleInput)
    (hs : s.streaming = true) (ha : s.adcRunning = true)
    (hr : inp.retOk = true) (hsz : inp.sizeRet = CONV_FRAME_SIZE)
    (hf : ∀ x ∈ inp.frame, x < 4096) :
    (sysStep s (.cycle inp)).2.1 = some (buildPacket s.counter inp.frame) ∧
    (buildPacket s.counter inp.frame).length = PACKET_LEN ∧
    (packetBytes (buildPacket s.counter inp.frame)).length = PACKET_SIZE ∧
    (∀ j < PACKET_LEN, ((buildPacket s.counter inp.frame).getD j []).length = SAMPLE_SIZE) ∧
    (∀ j < PACKET_LEN, pktRowHead (buildPacket s.counter inp.frame) j = (s.counter + j) % 256) ∧
    (∀ j < PACKET_LEN, ∀ i < 3,
      ((buildPacket s.counter inp.frame).getD j []).getD (1 + 2 * i) 0 * 256 +
        ((buildPacket s.counter inp.frame).getD j []).getD (2 + 2 * i) 0 =
        min (MAP (inp.frame.getD (i + j * NUM_CHANNELS) 0)) 65535) := by
  have hgen : ∀ (l : List ℕ), (∀ x ∈ l, x < 4096) → ∀ k, l.getD k 0 < 4096 := by
    intro l
    induction l with
    | nil => intro _ k; simp
    | cons a t ih =>
        intro hl k
        cases k with
        | zero => simpa using hl a (by simp)
        | succ k =>
            simp only [List.getD_cons_succ]
            exact ih (fun x hx => hl x (by simp [hx])) k
  have hraw : ∀ k, inp.frame.getD k 0 < 4096 := hgen inp.frame hf
  refine ⟨?_, buildPacket_length _ _, ?_, ?_, ?_, ?_⟩
  · simp [sysStep, hs, ha, hr, hsz]
  · rw [packetBytes_length _ (fun r hr => mem_buildPacket_length _ _ hr),
        buildPacket_length]
    decide
  · intro j hj
    rw [buildPacket_row _ _ hj, buildRow_length]
  · intro j hj
    rw [pktRowHead, buildPacket_row _ _ hj]
    rfl
  · intro j hj i hi
    rw [buildPacket_row _ _ hj]
    have h0 := hraw (0 + j * NUM_CHANNELS)
    have h1 := hraw (1 + j * NUM_CHANNELS)
    have h2 := hraw (2 + j * NUM_CHANNELS)
    interval_cases i <;>
      simp only [buildRow, u16, MAP, List.getD_cons_succ, List.getD_cons_zero] <;>
      omega

/-- Fixed concrete state: streaming enabled, ADC and BLE running, counter 0. -/
def sysA : Sys :=
  { streaming := true, counter := 0, bleRunning := true, adcRunning := true,
    advertising := false, pixels := fun _ => (GREEN, 10) }

/-- Fixed concrete well-formed cycle input: all raw codes equal 4000. -/
def inpA : CycleInput :=
  { retOk := true, sizeRet := 400, frame := List.replicate 100 4000 }

theorem c1_sample_encoder_witness :
    (sysStep sysA (.cycle inpA)).2.1 = some (buildPacket sysA.counter inpA.frame) ∧
    pktRowHead (buildPacket sysA.counter inpA.frame) 3 = (sysA.counter + 3) % 256 :=
  ⟨(c1_sample_encoder sysA inpA rfl rfl rfl (by decide) (by decide)).1,
   (c1_sample_encoder sysA inpA rfl rfl rfl (by decide) (by decide)).2.2.2.2.1 3 (by decide)⟩

/-- A cycle whose conversion read fails or returns the wrong size does not
change the state and emits nothing. -/
lemma sysStep_cycle_skip (s : Sys) (inp : CycleInput)
    (hbad : ¬(inp.retOk = true ∧ inp.sizeRet = CONV_FRAME_SIZE)) :
    sysStep s (.cycle inp) = (s, none, none) := by
  simp only [sysStep]
  by_cases h : s.streaming = true ∧ s.adcRunning = true
  · rw [if_pos h, if_neg hbad]
  · rw [if_neg h]

/-- C5: while streaming, a cycle whose conversion read fails or returns the
wrong size changes nothing: no packet is handed to the wireless layer, and
the whole state (rolling counter and streaming flag included) is untouched. -/
theorem c5_corrupted_read_skip (s : Sys) (inp : CycleInput)
    (hs : s.streaming = true)
    (hbad : ¬(inp.retOk = true ∧ inp.sizeRet = CONV_FRAME_SIZE)) :
    sysStep s (.cycle inp) = (s, none, none) :=
  sysStep_cycle_skip s inp hbad

/-- Fixed concrete malformed cycle input: short read. -/
def inpBad : CycleInput := { retOk := true, sizeRet := 399, frame := [] }

theorem c5_corrupted_read_skip_witness :
    sysStep sysA (.cycle inpBad) = (sysA, none, none) :=
  c5_corrupted_read_skip sysA inpBad rfl (by decide)

/-- C7: on a link-loss event the handler forces the streaming flag false,
paints pixel 0 red (the disconnected indication) and flags an immediate
advertising restart, all in the same event-handling step. -/
theorem c7_disconnect_handling (s : Sys) :
    (sysStep s .disconnect).1.streaming = false ∧
    (sysStep s .disconnect).1.advertising = true ∧
    (sysStep s .disconnect).1.pixels 0 = (RED, 10) ∧
    (sysStep s .disconnect).2.1 = none := by
  refine ⟨rfl, rfl, ?_, rfl⟩
  simp [sysStep, set_pixel]

theorem c7_disconnect_handling_witness :
    (sysStep sysA .disconnect).1.streaming = false ∧
    (sysStep sysA .disconnect).1.advertising = true ∧
    (sysStep sysA .disconnect).1.pixels 0 = (RED, 10) ∧
    (sysStep sysA .disconnect).2.1 = none :=
  c7_disconnect_handling sysA

/-! Idempotence of START and STOP. -/

/-- C8: STOP written while the flag is already false answers STOPPED and the
resulting state is identical to the state before the write; START written
while the flag is already true answers RUNNING with the state likewise
unchanged.  The pixel hypotheses record the colour that every reachable state
satisfying the corresponding flag value already carries (GREEN is set by the
connect handler and by STOP, BLUE by the START that raised the flag). -/
theorem c8_start_stop_idempotent :
    (∀ s : Sys, s.streaming = false → s.pixels 0 = (GREEN, 10) →
      sysStep s (.write (strBytes "STOP")) = (s, none, some "STOPPED")) ∧
    (∀ s : Sys, s.streaming = true → s.pixels 0 = (BLUE, 10) →
      sysStep s (.write (strBytes "START")) = (s, none, some "RUNNING")) := by
  constructor
  · intro s h1 h2
    have hg : gatt_write s.streaming (strBytes "STOP") =
        ⟨false, "STOPPED", some (0, GREEN, 10)⟩ := rfl
    simp only [sysStep, hg, set_pixel]
    obtain ⟨st, c, bl, ad, av, px⟩ := s
    simp only at h1 h2
    subst h1
    have hupd : Function.update px 0 (GREEN, 10) = px := by
      rw [← h2]
      exact Function.update_eq_self 0 px
    simp [hupd]
  · intro s h1 h2
    have hg : gatt_write s.streaming (strBytes "START") =
        ⟨true, "RUNNING", some (0, BLUE, 10)⟩ := rfl
    simp only [sysStep, hg, set_pixel]
    obtain ⟨st, c, bl, ad, av, px⟩ := s
    simp only at h1 h2
    subst h1
    have hupd : Function.update px 0 (BLUE, 10) = px := by
      rw [← h2]
      exact Function.update_eq_self 0 px
    simp [hupd]

/-- Fixed concrete idle connected state (flag false, pixel 0 green). -/
def sysIdle : Sys :=
  { streaming := false, counter := 7, bleRunning := true, adcRunning := true,
    advertising := false, pixels := fun _ => (GREEN, 10) }

theorem c8_start_stop_idempotent_witness :
    sysStep sysIdle (.write (strBytes "STOP")) = (sysIdle, none, some "STOPPED") :=
  c8_start_stop_idempotent.1 sysIdle rfl rfl

/-! Battery-check state effects. -/

lemma battery_check_ge (r : ℕ) (s : Sys)
    (h : 5 ≤ battery_percent (battery_voltage r)) :
    battery_check r s = s := by
  unfold battery_check
  rw [if_neg (by omega)]

lemma battery_check_streaming (r : ℕ) (s : Sys) :
    (battery_check r s).streaming = s.streaming := by
  unfold battery_check set_pixel
  split <;> rfl

lemma battery_check_counter (r : ℕ) (s : Sys) :
    (battery_check r s).counter = s.counter := by
  unfold battery_check set_pixel
  split <;> rfl

/-- The state after a successfully read cycle, when the battery is healthy. -/
lemma sysStep_good_cycle (s : Sys) (inp : CycleInput)
    (hs : s.streaming = true) (ha : s.adcRunning = true)
    (hr : inp.retOk = true) (hsz : inp.sizeRet = CONV_FRAME_SIZE)
    (hbatt : 5 ≤ battery_percent (battery_voltage (batteryReading inp.frame))) :
    sysStep s (.cycle inp) =
      ({ s with counter := (s.counter + PACKET_LEN) % 256 },
       some (buildPacket s.counter inp.frame), none) := by
  simp only [sysStep]
  rw [if_pos ⟨hs, ha⟩, if_pos ⟨hr, hsz⟩]
  rw [battery_check_ge _ _ hbatt]

/-- A successfully read cycle always hands the built packet to notify. -/
lemma sysStep_cycle_emit (s : Sys) (inp : CycleInput)
    (hs : s.streaming = true) (ha : s.adcRunning = true)
    (hr : inp.retOk = true) (hsz : inp.sizeRet = CONV_FRAME_SIZE) :
    (sysStep s (.cycle inp)).2.1 = some (buildPacket s.counter inp.frame) := by
  simp [sysStep, hs, ha, hr, hsz]

/-- C10: a skipped (wrong-size) cycle between two good cycles does not
advance the counter, so the first sequence byte of the packet emitted after
the skip is exactly one more, mod 256, than the last sequence byte of the
packet emitted before it. -/
theorem c10_skip_no_discontinuity (s : Sys) (good1 bad good2 : CycleInput)
    (hs : s.streaming = true) (ha : s.adcRunning = true)
    (hr1 : good1.retOk = true) (hsz1 : good1.sizeRet = CONV_FRAME_SIZE)
    (hbatt : 5 ≤ battery_percent (battery_voltage (batteryReading good1.frame)))
    (hbad : ¬(bad.retOk = true ∧ bad.sizeRet = CONV_FRAME_SIZE))
    (hr2 : good2.retOk = true) (hsz2 : good2.sizeRet = CONV_FRAME_SIZE) :
    (sysStep s (.cycle good1)).2.1 = some (buildPacket s.counter good1.frame) ∧
    (sysStep (sysStep s (.cycle good1)).1 (.cycle bad)).2.1 = none ∧
    (sysStep (sysStep s (.cycle good1)).1 (.cycle bad)).1 =
      (sysStep s (.cycle good1)).1 ∧
    (sysStep (sysStep (sysStep s (.cycle good1)).1 (.cycle bad)).1
        (.cycle good2)).2.1 =
      some (buildPacket ((s.counter + PACKET_LEN) % 256) good2.frame) ∧
    pktRowHead (buildPacket s.counter good1.frame) (PACKET_LEN - 1) =
      (s.counter + 24) % 256 ∧
    pktRowHead (buildPacket ((s.counter + PACKET_LEN) % 256) good2.frame) 0 =
      ((s.counter + 24) % 256 + 1) % 256 := by
  have h1 := sysStep_good_cycle s good1 hs ha hr1 hsz1 hbatt
  have hskip : sysStep (sysStep s (.cycle good1)).1 (.cycle bad) =
      ((sysStep s (.cycle good1)).1, none, none) :=
    sysStep_cycle_skip _ bad hbad
  refine ⟨by rw [h1], by rw [hskip], by rw [hskip], ?_, ?_, ?_⟩
  · rw [hskip, h1]
    exact sysStep_cycle_emit _ good2 hs ha hr2 hsz2
  · rw [pktRowHead, buildPacket_row _ _ (by decide : PACKET_LEN - 1 < PACKET_LEN)]
    show (s.counter + (PACKET_LEN - 1)) % 256 = (s.counter + 24) % 256
    rfl
  · rw [pktRowHead, buildPacket_row _ _ (by decide : 0 < PACKET_LEN)]
    show ((s.counter + PACKET_LEN) % 256 + 0) % 256 = ((s.counter + 24) % 256 + 1) % 256
    simp only [PACKET_LEN]
    omega

theorem c10_skip_no_discontinuity_witness :
    (sysStep (sysStep (sysStep sysA (.cycle inpA)).1 (.cycle inpBad)).1 (.cycle inpA)).2.1 =
      some (buildPacket ((sysA.counter + PACKET_LEN) % 256) inpA.frame) ∧
    pktRowHead (buildPacket ((sysA.counter + PACKET_LEN) % 256) inpA.frame) 0 =
      ((sysA.counter + 24) % 256 + 1) % 256 := by
  have hbatt : 5 ≤ battery_percent (battery_voltage (batteryReading inpA.frame)) := by
    have hb : batteryReading inpA.frame = 9840 := by decide
    rw [hb]
    unfold battery_percent
    rw [if_neg (by norm_num [battery_voltage, batt_table]),
        if_pos (by norm_num [battery_voltage, batt_table])]
    norm_num [batt_table]
  have h := c10_skip_no_discontinuity sysA inpA inpBad inpA rfl rfl rfl (by decide)
    hbatt (by decide) rfl (by decide)
  exact ⟨h.2.2.2.1, h.2.2.2.2.2⟩

/-! Sequence-continuity machinery. -/

lemma seqFrom_append (c a b : ℕ) :
    seqFrom c (a + b) = seqFrom c a ++ seqFrom (c + a) b := by
  induction a generalizing c with
  | zero => simp [seqFrom]
  | succ a ih =>
      have h1 : a + 1 + b = (a + b) + 1 := by omega
      have h2 : c + (a + 1) = (c + 1) + a := by omega
      rw [h1]
      simp only [seqFrom]
      rw [ih (c + 1), h2]
      rfl

lemma seqFrom_mod (c c' n : ℕ) (h : c % 256 = c' % 256) :
    seqFrom c n = seqFrom c' n := by
  induction n generalizing c c' with
  | zero => rfl
  | succ n ih =>
      simp only [seqFrom, h]
      rw [ih (c + 1) (c' + 1) (by omega)]

lemma map_range_seqFrom (n : ℕ) : ∀ c : ℕ,
    (List.range n).map (fun j => (c + j) % 256) = seqFrom c n := by
  induction n with
  | zero => intro c; rfl
  | succ n ih =>
      intro c
      rw [List.range_succ_eq_map, List.map_cons, List.map_map]
      simp only [seqFrom, Nat.add_zero]
      congr 1
      rw [← ih (c + 1)]
      apply List.map_congr_left
      intro j _
      simp only [Function.comp_apply]
      congr 1
      omega

lemma pktHeads_buildPacket (c : ℕ) (frame : List ℕ) :
    pktHeads (buildPacket c frame) = seqFrom c PACKET_LEN := by
  rw [pktHeads, buildPacket, List.map_map, ← map_range_seqFrom PACKET_LEN c]
  rfl

/-- A step that emits no packet leaves the counter unchanged. -/
lemma sysStep_counter_none (s : Sys) (e : Event)
    (h : (sysStep s e).2.1 = none) : (sysStep s e).1.counter = s.counter := by
  cases e with
  | cycle inp =>
      simp only [sysStep] at h ⊢
      split_ifs at h ⊢ with h1 h2
      · rfl
      · rfl
  | write p =>
      simp only [sysStep]
      split <;> rfl
  | disconnect => rfl

/-- A step that emits a packet emits the packet built at the current counter
and advances the counter by PACKET_LEN mod 256. -/
lemma sysStep_counter_some (s : Sys) (e : Event) (p : List (List ℕ))
    (h : (sysStep s e).2.1 = some p) :
    p = buildPacket s.counter (match e with | .cycle inp => inp.frame | _ => []) ∧
    (sysStep s e).1.counter = (s.counter + PACKET_LEN) % 256 := by
  cases e with
  | cycle inp =>
      simp only [sysStep] at h ⊢
      split_ifs at h ⊢ with h1 h2
      simp only [Option.some.injEq] at h
      exact ⟨h.symm, battery_check_counter _ _⟩
  | write p' => simp [sysStep] at h
  | disconnect => simp [sysStep] at h

lemma sysStep_counter_lt (s : Sys) (e : Event) (hc : s.counter < 256) :
    (sysStep s e).1.counter < 256 := by
  rcases h : (sysStep s e).2.1 with _ | p
  · rw [sysStep_counter_none s e h]; exact hc
  · rw [(sysStep_counter_some s e p h).2]; omega

/-- C6: over any event trace (cycles, control writes, disconnects), the
sequence bytes of all emitted packets, concatenated in emission order, form
one gapless run of consecutive mod-256 values starting at the initial
counter.  In particular rows within one packet are consecutive, successive
packets continue the sequence, and disconnect events never reset it. -/
theorem c6_sequence_continuity (s : Sys) (es : List Event) (hc : s.counter < 256) :
    packetsHeads (runTrace s es).2 =
      seqFrom s.counter (PACKET_LEN * (runTrace s es).2.length) ∧
    (runTrace s es).1.counter =
      (s.counter + PACKET_LEN * (runTrace s es).2.length) % 256 := by
  induction es generalizing s with
  | nil =>
      refine ⟨rfl, ?_⟩
      simp only [runTrace, List.length_nil, Nat.mul_zero, Nat.add_zero]
      omega
  | cons e es ih =>
      obtain ⟨ih1, ih2⟩ := ih (sysStep s e).1 (sysStep_counter_lt s e hc)
      rcases h : (sysStep s e).2.1 with _ | p
      · have hcnt := sysStep_counter_none s e h
        simp only [runTrace, h, Option.toList_none, List.nil_append]
        rw [ih1, ih2, hcnt]
        exact ⟨rfl, rfl⟩
      · obtain ⟨hp, hcnt⟩ := sysStep_counter_some s e p h
        simp only [runTrace, h, Option.toList_some, List.singleton_append]
        have hlen : (p :: (runTrace (sysStep s e).1 es).2).length =
            (runTrace (sysStep s e).1 es).2.length + 1 := rfl
        rw [hlen]
        constructor
        · show pktHeads p ++ packetsHeads (runTrace (sysStep s e).1 es).2 = _
          rw [ih1, hcnt]
          cases e with
          | cycle inp =>
              rw [hp, pktHeads_buildPacket]
              rw [seqFrom_mod ((s.counter + PACKET_LEN) % 256) (s.counter + PACKET_LEN) _
                (by omega)]
              rw [← seqFrom_append]
              congr 1
              ring
          | write p' => simp [sysStep] at h
          | disconnect => simp [sysStep] at h
        · rw [ih2, hcnt]
          simp only [PACKET_LEN]
          omega

theorem c6_sequence_continuity_witness :
    packetsHeads (runTrace sysA [.cycle inpA, .cycle inpBad, .disconnect]).2 =
      seqFrom sysA.counter
        (PACKET_LEN * (runTrace sysA [.cycle inpA, .cycle inpBad, .disconnect]).2.length) ∧
    (runTrace sysA [.cycle inpA, .cycle inpBad, .disconnect]).1.counter =
      (sysA.counter +
        PACKET_LEN * (runTrace sysA [.cycle inpA, .cycle inpBad, .disconnect]).2.length) % 256 :=
  c6_sequence_continuity sysA [.cycle inpA, .cycle inpBad, .disconnect] (by decide)

/-! Command-processor lemmas. -/

lemma cmd_buffer_short (p : List ℕ) (hp : p.length ≤ 19) :
    cmd_buffer p = upBytes p ++ List.replicate (20 - p.length) 0 := by
  unfold cmd_buffer upBytes
  rw [List.take_of_length_le hp, min_eq_left hp]

lemma take_pad_eq (l : List ℕ) (m n : ℕ) (w : List ℕ) (hw : w.length = n)
    (hmn : n ≤ l.length + m) (hnz : ∀ x ∈ w, x ≠ 0) :
    ((l ++ List.replicate m 0).take n = w ↔ l.take n = w) := by
  rcases le_or_lt n l.length with h | h
  · rw [List.take_append_eq_append_take]
    have h0 : n - l.length = 0 := by omega
    simp [h0]
  · have hl : l.take n = l := List.take_of_length_le (le_of_lt h)
    have hLHS : (l ++ List.replicate m 0).take n = l ++ List.replicate (n - l.length) 0 := by
      rw [List.take_append_eq_append_take, hl, List.take_replicate]
      congr 2
      exact min_eq_left (by omega)
    refine iff_of_false ?_ ?_
    · rw [hLHS]
      intro heq
      have h0 : (0 : ℕ) ∈ w := by
        rw [← heq]
        exact List.mem_append.mpr (Or.inr (List.mem_replicate.mpr ⟨by omega, rfl⟩))
      exact hnz 0 h0 rfl
    · rw [hl]
      intro heq
      have hlen := congrArg List.length heq
      rw [hw] at hlen
      omega

lemma gatt_cond (p : List ℕ) (hp : p.length ≤ 19) (n : ℕ) (w : List ℕ)
    (hw : w.length = n) (hn : n ≤ 20) (hnz : ∀ x ∈ w, x ≠ 0) :
    ((cmd_buffer p).take n = w ↔ (upBytes p).take n = w) := by
  rw [cmd_buffer_short p hp]
  refine take_pad_eq (upBytes p) (20 - p.length) n w hw ?_ hnz
  simp only [upBytes, List.length_map]
  omega

lemma take_eq_of_take_eq {l w : List ℕ} {m n : ℕ} (hmn : m ≤ n) (h : l.take n = w) :
    l.take m = w.take m := by
  rw [← h, List.take_take, min_eq_left hmn]

/-- C2: the command handler decodes a control write case-insensitively by
prefix match: an uppercased-prefix START sets the flag and answers RUNNING,
STOP clears it and answers STOPPED, WHORU answers the identity string,
STATUS answers RUNNING or STOPPED per the current flag, and anything else
answers UNKNOWN COMMAND leaving the flag unchanged.  Payloads are limited to
19 meaningful bytes. -/
theorem c2_command_decode (st : Bool) (p : List ℕ) (hp : p.length ≤ 19) :
    ((upBytes p).take 5 = strBytes "START" →
      (gatt_write st p).streaming = true ∧ (gatt_write st p).response = "RUNNING") ∧
    ((upBytes p).take 4 = strBytes "STOP" →
      (gatt_write st p).streaming = false ∧ (gatt_write st p).response = "STOPPED") ∧
    ((upBytes p).take 5 = strBytes "WHORU" →
      (gatt_write st p).response = "NPG-LITE") ∧
    ((upBytes p).take 6 = strBytes "STATUS" →
      (gatt_write st p).response = if st then "RUNNING" else "STOPPED") ∧
    ((upBytes p).take 5 ≠ strBytes "START" → (upBytes p).take 4 ≠ strBytes "STOP" →
      (upBytes p).take 5 ≠ strBytes "WHORU" → (upBytes p).take 6 ≠ strBytes "STATUS" →
      (gatt_write st p).streaming = st ∧
        (gatt_write st p).response = "UNKNOWN COMMAND") := by
  have hSTART := gatt_cond p hp 5 (strBytes "START") (by decide) (by decide) (by decide)
  have hSTOP := gatt_cond p hp 4 (strBytes "STOP") (by decide) (by decide) (by decide)
  have hWHORU := gatt_cond p hp 5 (strBytes "WHORU") (by decide) (by decide) (by decide)
  have hSTATUS := gatt_cond p hp 6 (strBytes "STATUS") (by decide) (by decide) (by decide)
  refine ⟨?_, ?_, ?_, ?_, ?_⟩
  · intro h
    simp only [gatt_write]
    rw [if_pos (hSTART.mpr h)]
    exact ⟨rfl, rfl⟩
  · intro h
    have hns : ¬(cmd_buffer p).take 5 = strBytes "START" := by
      rw [hSTART]
      intro h5
      have h4 := take_eq_of_take_eq (show (4:ℕ) ≤ 5 by norm_num) h5
      rw [h] at h4
      exact absurd h4 (by decide)
    simp only [gatt_write]
    rw [if_neg hns, if_pos (hSTOP.mpr h)]
    exact ⟨rfl, rfl⟩
  · intro h
    have hns : ¬(cmd_buffer p).take 5 = strBytes "START" := by
      rw [hSTART]
      intro h5
      rw [h] at h5
      exact absurd h5 (by decide)
    have hnp : ¬(cmd_buffer p).take 4 = strBytes "STOP" := by
      rw [hSTOP]
      intro h4
      have h4w := take_eq_of_take_eq (by norm_num : (4:ℕ) ≤ 5) h
      rw [h4] at h4w
      exact absurd h4w (by decide)
    simp only [gatt_write]
    rw [if_neg hns, if_neg hnp, if_pos (hWHORU.mpr h)]
  · intro h
    have h5 := take_eq_of_take_eq (by norm_num : (5:ℕ) ≤ 6) h
    have h4 := take_eq_of_take_eq (by norm_num : (4:ℕ) ≤ 6) h
    have hns : ¬(cmd_buffer p).take 5 = strBytes "START" := by
      rw [hSTART, h5]
      decide
    have hnp : ¬(cmd_buffer p).take 4 = strBytes "STOP" := by
      rw [hSTOP, h4]
      decide
    have hnw : ¬(cmd_buffer p).take 5 = strBytes "WHORU" := by
      rw [hWHORU, h5]
      decide
    simp only [gatt_write]
    rw [if_neg hns, if_neg hnp, if_neg hnw, if_pos (hSTATUS.mpr h)]
  · intro h1 h2 h3 h4
    simp only [gatt_write]
    rw [if_neg (by rw [hSTART]; exact h1), if_neg (by rw [hSTOP]; exact h2),
        if_neg (by rw [hWHORU]; exact h3), if_neg (by rw [hSTATUS]; exact h4)]
    exact ⟨rfl, rfl⟩

theorem c2_command_decode_witness :
    (gatt_write true (strBytes "FOO")).streaming = true ∧
    (gatt_write true (strBytes "FOO")).response = "UNKNOWN COMMAND" :=
  (c2_command_decode true (strBytes "FOO") (by decide)).2.2.2.2
    (by decide) (by decide) (by decide) (by decide)

/-- C9 evidence: for a 20-byte control write the handler touches cmd_buffer
index 20, one past the end of the 20-byte buffer (the null terminator is
written at index om_len, and the toupper loop also runs to om_len), while
the memcpy itself does truncate to 19 bytes. -/
theorem c9_cmd_buffer_overflow :
    copy_len 25 = 19 ∧
    (20 : ℕ) ∈ cmd_write_indices 20 ∧
    ¬(∀ i ∈ cmd_write_indices 20, i < 20) := by
  decide

/-! Battery-estimator lemmas. -/

/-- Strictly ascending voltages with non-decreasing percents. -/
def chainP : List (ℚ × ℕ) → Prop
  | (v1, p1) :: (v2, p2) :: rest => v1 < v2 ∧ p1 ≤ p2 ∧ chainP ((v2, p2) :: rest)
  | _ => True

lemma chainP_batt : chainP batt_table := by
  norm_num [batt_table, chainP]

lemma chainP_tail {x : ℚ × ℕ} {L : List (ℚ × ℕ)} (h : chainP (x :: L)) : chainP L := by
  obtain ⟨v1, p1⟩ := x
  cases L with
  | nil => trivial
  | cons y r =>
      obtain ⟨v2, p2⟩ := y
      exact h.2.2

/-- Voltage of the last table entry. -/
def lastVolt : List (ℚ × ℕ) → ℚ
  | [] => 0
  | [(v, _)] => v
  | _ :: x :: rest => lastVolt (x :: rest)

/-- Percent of the last table entry. -/
def lastPct : List (ℚ × ℕ) → ℕ
  | [] => 0
  | [(_, q)] => q
  | _ :: x :: rest => lastPct (x :: rest)

lemma interpSeg_left (v1 v2 : ℚ) (p1 p2 : ℕ) : interpSeg v1 v1 v2 p1 p2 = p1 := by
  unfold interpSeg
  rw [sub_self, zero_mul, zero_div, add_zero, Int.floor_natCast]
  simp

lemma interpSeg_right (v1 v2 : ℚ) (p1 p2 : ℕ) (h : v1 < v2) :
    interpSeg v2 v1 v2 p1 p2 = p2 := by
  unfold interpSeg
  have hne : v2 - v1 ≠ 0 := sub_ne_zero.mpr (ne_of_gt h)
  rw [mul_div_cancel_left₀ _ hne]
  have hq : (p1 : ℚ) + (↑p2 - ↑p1) = (p2 : ℚ) := by ring
  rw [hq, Int.floor_natCast]
  simp

lemma le_interpSeg (v v1 v2 : ℚ) (p1 p2 : ℕ) (h12 : v1 < v2) (hp : p1 ≤ p2)
    (hv : v1 ≤ v) : p1 ≤ interpSeg v v1 v2 p1 p2 := by
  unfold interpSeg
  have hpq : (p1 : ℚ) ≤ (p2 : ℚ) := by exact_mod_cast hp
  have hnum : (0 : ℚ) ≤ (v - v1) * ((p2 : ℚ) - (p1 : ℚ)) :=
    mul_nonneg (by linarith) (by linarith)
  have hq : (p1 : ℚ) ≤ (p1 : ℚ) + (v - v1) * ((p2 : ℚ) - (p1 : ℚ)) / (v2 - v1) := by
    have := div_nonneg hnum (by linarith : (0 : ℚ) ≤ v2 - v1)
    linarith
  have hfl : (p1 : ℤ) ≤ ⌊(p1 : ℚ) + (v - v1) * ((p2 : ℚ) - (p1 : ℚ)) / (v2 - v1)⌋ := by
    rw [Int.le_floor]
    push_cast
    exact hq
  omega

lemma interpSeg_le (v v1 v2 : ℚ) (p1 p2 : ℕ) (h12 : v1 < v2) (hp : p1 ≤ p2)
    (hv : v ≤ v2) : interpSeg v v1 v2 p1 p2 ≤ p2 := by
  unfold interpSeg
  have hden : (0 : ℚ) < v2 - v1 := by linarith
  have hpq : (p1 : ℚ) ≤ (p2 : ℚ) := by exact_mod_cast hp
  have h1 : (v - v1) * ((p2 : ℚ) - (p1 : ℚ)) ≤ (v2 - v1) * ((p2 : ℚ) - (p1 : ℚ)) :=
    mul_le_mul_of_nonneg_right (by linarith) (by linarith)
  have h2 : (v - v1) * ((p2 : ℚ) - (p1 : ℚ)) / (v2 - v1) ≤
      (v2 - v1) * ((p2 : ℚ) - (p1 : ℚ)) / (v2 - v1) := (div_le_div_right hden).mpr h1
  rw [mul_div_cancel_left₀ _ (ne_of_gt hden)] at h2
  have hfl : ⌊(p1 : ℚ) + (v - v1) * ((p2 : ℚ) - (p1 : ℚ)) / (v2 - v1)⌋ ≤ (p2 : ℤ) := by
    calc ⌊(p1 : ℚ) + (v - v1) * ((p2 : ℚ) - (p1 : ℚ)) / (v2 - v1)⌋
        ≤ ⌊(p2 : ℚ)⌋ := Int.floor_le_floor (by linarith)
      _ = (p2 : ℤ) := Int.floor_natCast p2
  omega

lemma interpSeg_mono (v w v1 v2 : ℚ) (p1 p2 : ℕ) (h12 : v1 < v2) (hp : p1 ≤ p2)
    (hvw : v ≤ w) : interpSeg v v1 v2 p1 p2 ≤ interpSeg w v1 v2 p1 p2 := by
  unfold interpSeg
  have hden : (0 : ℚ) < v2 - v1 := by linarith
  have hpq : (p1 : ℚ) ≤ (p2 : ℚ) := by exact_mod_cast hp
  have h1 : (v - v1) * ((p2 : ℚ) - (p1 : ℚ)) ≤ (w - v1) * ((p2 : ℚ) - (p1 : ℚ)) :=
    mul_le_mul_of_nonneg_right (by linarith) (by linarith)
  have h2 : (v - v1) * ((p2 : ℚ) - (p1 : ℚ)) / (v2 - v1) ≤
      (w - v1) * ((p2 : ℚ) - (p1 : ℚ)) / (v2 - v1) := (div_le_div_right hden).mpr h1
  exact Int.toNat_le_toNat (Int.floor_le_floor (by linarith))

lemma battLoop_cons_cons (v v1 : ℚ) (p1 : ℕ) (v2 : ℚ) (p2 : ℕ) (rest : List (ℚ × ℕ)) :
    battLoop v ((v1, p1) :: (v2, p2) :: rest) =
      if v1 ≤ v ∧ v ≤ v2 then interpSeg v v1 v2 p1 p2
      else battLoop v ((v2, p2) :: rest) := rfl

lemma battLoop_lb (v : ℚ) :
    ∀ (rest : List (ℚ × ℕ)) (v1 : ℚ) (p1 : ℕ) (v2 : ℚ) (p2 : ℕ),
      chainP ((v1, p1) :: (v2, p2) :: rest) → v1 ≤ v →
      v ≤ lastVolt ((v1, p1) :: (v2, p2) :: rest) →
      p1 ≤ battLoop v ((v1, p1) :: (v2, p2) :: rest) := by
  intro rest
  induction rest with
  | nil =>
      intro v1 p1 v2 p2 hch h1 hlast
      obtain ⟨h12, hp, -⟩ := hch
      have hlast2 : v ≤ v2 := hlast
      rw [battLoop_cons_cons, if_pos ⟨h1, hlast2⟩]
      exact le_interpSeg v v1 v2 p1 p2 h12 hp h1
  | cons hd tl ih =>
      intro v1 p1 v2 p2 hch h1 hlast
      obtain ⟨v3, p3⟩ := hd
      obtain ⟨h12, hp12, hch2⟩ := hch
      rw [battLoop_cons_cons]
      by_cases hcond : v1 ≤ v ∧ v ≤ v2
      · rw [if_pos hcond]
        exact le_interpSeg v v1 v2 p1 p2 h12 hp12 h1
      · rw [if_neg hcond]
        have hv2 : v2 ≤ v := by
          rcases not_and_or.mp hcond with h' | h'
          · exact absurd h1 h'
          · exact le_of_not_le h'
        have hlast2 : v ≤ lastVolt ((v2, p2) :: (v3, p3) :: tl) := hlast
        exact le_trans hp12 (ih v2 p2 v3 p3 hch2 hv2 hlast2)

lemma chainP_pct_le_last :
    ∀ (L : List (ℚ × ℕ)) (v1 : ℚ) (p1 : ℕ), chainP ((v1, p1) :: L) →
      p1 ≤ lastPct ((v1, p1) :: L) := by
  intro L
  induction L with
  | nil => intro v1 p1 _; exact le_refl p1
  | cons hd tl ih =>
      intro v1 p1 hch
      obtain ⟨v2, p2⟩ := hd
      obtain ⟨-, hp, hch2⟩ := hch
      exact le_trans hp (ih v2 p2 hch2)

lemma chainP_volt_le_last :
    ∀ (L : List (ℚ × ℕ)) (v1 : ℚ) (p1 : ℕ), chainP ((v1, p1) :: L) →
      v1 ≤ lastVolt ((v1, p1) :: L) := by
  intro L
  induction L with
  | nil => intro v1 p1 _; exact le_refl v1
  | cons hd tl ih =>
      intro v1 p1 hch
      obtain ⟨v2, p2⟩ := hd
      obtain ⟨h12, -, hch2⟩ := hch
      exact le_of_lt (lt_of_lt_of_le h12 (ih v2 p2 hch2))

lemma battLoop_ub (v : ℚ) :
    ∀ (rest : List (ℚ × ℕ)) (v1 : ℚ) (p1 : ℕ) (v2 : ℚ) (p2 : ℕ),
      chainP ((v1, p1) :: (v2, p2) :: rest) →
      battLoop v ((v1, p1) :: (v2, p2) :: rest) ≤
        lastPct ((v1, p1) :: (v2, p2) :: rest) := by
  intro rest
  induction rest with
  | nil =>
      intro v1 p1 v2 p2 hch
      obtain ⟨h12, hp, -⟩ := hch
      rw [battLoop_cons_cons]
      split_ifs with hcond
      · exact interpSeg_le v v1 v2 p1 p2 h12 hp hcond.2
      · exact Nat.zero_le _
  | cons hd tl ih =>
      intro v1 p1 v2 p2 hch
      obtain ⟨v3, p3⟩ := hd
      obtain ⟨h12, hp12, hch2⟩ := hch
      rw [battLoop_cons_cons]
      split_ifs with hcond
      · exact le_trans (interpSeg_le v v1 v2 p1 p2 h12 hp12 hcond.2)
          (chainP_pct_le_last _ v2 p2 hch2)
      · exact ih v2 p2 v3 p3 hch2

lemma battLoop_mono (v w : ℚ) (hvw : v ≤ w) :
    ∀ (rest : List (ℚ × ℕ)) (v1 : ℚ) (p1 : ℕ) (v2 : ℚ) (p2 : ℕ),
      chainP ((v1, p1) :: (v2, p2) :: rest) → v1 ≤ v →
      w ≤ lastVolt ((v1, p1) :: (v2, p2) :: rest) →
      battLoop v ((v1, p1) :: (v2, p2) :: rest) ≤
        battLoop w ((v1, p1) :: (v2, p2) :: rest) := by
  intro rest
  induction rest with
  | nil =>
      intro v1 p1 v2 p2 hch h1 hlast
      obtain ⟨h12, hp, -⟩ := hch
      have hw2 : w ≤ v2 := hlast
      rw [battLoop_cons_cons v, battLoop_cons_cons w]
      rw [if_pos (show v1 ≤ v ∧ v ≤ v2 from ⟨h1, le_trans hvw hw2⟩),
          if_pos (show v1 ≤ w ∧ w ≤ v2 from ⟨le_trans h1 hvw, hw2⟩)]
      exact interpSeg_mono v w v1 v2 p1 p2 h12 hp hvw
  | cons hd tl ih =>
      intro v1 p1 v2 p2 hch h1 hlast
      obtain ⟨v3, p3⟩ := hd
      obtain ⟨h12, hp12, hch2⟩ := hch
      rw [battLoop_cons_cons v, battLoop_cons_cons w]
      have hlast2 : w ≤ lastVolt ((v2, p2) :: (v3, p3) :: tl) := hlast
      by_cases hw2 : w ≤ v2
      · rw [if_pos (show v1 ≤ v ∧ v ≤ v2 from ⟨h1, le_trans hvw hw2⟩),
            if_pos (show v1 ≤ w ∧ w ≤ v2 from ⟨le_trans h1 hvw, hw2⟩)]
        exact interpSeg_mono v w v1 v2 p1 p2 h12 hp12 hvw
      · rw [if_neg (show ¬(v1 ≤ w ∧ w ≤ v2) from fun hc => hw2 hc.2)]
        by_cases hv2 : v ≤ v2
        · rw [if_pos (show v1 ≤ v ∧ v ≤ v2 from ⟨h1, hv2⟩)]
          refine le_trans (interpSeg_le v v1 v2 p1 p2 h12 hp12 hv2) ?_
          exact battLoop_lb w tl v2 p2 v3 p3 hch2 (le_of_not_le hw2) hlast2
        · rw [if_neg (show ¬(v1 ≤ v ∧ v ≤ v2) from fun hc => hv2 hc.2)]
          exact ih v2 p2 v3 p3 hch2 (le_of_not_le hv2) hlast2

/-- The pairs (a, pa), (b, pb) that sit in adjacent positions of the table. -/
inductive AdjIn : List (ℚ × ℕ) → ℚ → ℕ → ℚ → ℕ → Prop
  | head (v1 : ℚ) (p1 : ℕ) (v2 : ℚ) (p2 : ℕ) (rest : List (ℚ × ℕ)) :
      AdjIn ((v1, p1) :: (v2, p2) :: rest) v1 p1 v2 p2
  | tail (x : ℚ × ℕ) {L : List (ℚ × ℕ)} {v1 : ℚ} {p1 : ℕ} {v2 : ℚ} {p2 : ℕ} :
      AdjIn L v1 p1 v2 p2 → AdjIn (x :: L) v1 p1 v2 p2

lemma adjIn_shape {L : List (ℚ × ℕ)} {a : ℚ} {pa : ℕ} {b : ℚ} {pb : ℕ}
    (h : AdjIn L a pa b pb) : ∃ x xs, L = x :: xs := by
  induction h with
  | head v1 p1 v2 p2 rest => exact ⟨(v1, p1), (v2, p2) :: rest, rfl⟩
  | tail x h' ih => exact ⟨x, _, rfl⟩

lemma adjIn_head_le {L : List (ℚ × ℕ)} {a : ℚ} {pa : ℕ} {b : ℚ} {pb : ℕ}
    (h : AdjIn L a pa b pb) :
    chainP L → ∀ x xs, L = x :: xs → x.1 ≤ a := by
  induction h with
  | head v1 p1 v2 p2 rest =>
      intro _ x xs hL
      injection hL with h1 _
      rw [← h1]
  | tail y h' ih =>
      intro hch x xs hL
      injection hL with h1 h2
      obtain ⟨z, zs, hz⟩ := adjIn_shape h'
      have hza := ih (chainP_tail hch) z zs hz
      subst hz
      obtain ⟨vy, py⟩ := y
      obtain ⟨vz, pz⟩ := z
      have hyz : vy < vz := hch.1
      rw [← h1]
      exact le_of_lt (lt_of_lt_of_le hyz hza)

lemma adjIn_lt {L : List (ℚ × ℕ)} {a : ℚ} {pa : ℕ} {b : ℚ} {pb : ℕ}
    (h : AdjIn L a pa b pb) : chainP L → a < b ∧ pa ≤ pb := by
  induction h with
  | head v1 p1 v2 p2 rest => intro hch; exact ⟨hch.1, hch.2.1⟩
  | tail y h' ih => intro hch; exact ih (chainP_tail hch)

lemma adjIn_le_last {L : List (ℚ × ℕ)} {a : ℚ} {pa : ℕ} {b : ℚ} {pb : ℕ}
    (h : AdjIn L a pa b pb) : chainP L → b ≤ lastVolt L := by
  induction h with
  | head v1 p1 v2 p2 rest =>
      intro hch
      exact chainP_volt_le_last rest v2 p2 hch.2.2
  | tail y h' ih =>
      intro hch
      obtain ⟨z, zs, hz⟩ := adjIn_shape h'
      subst hz
      exact ih (chainP_tail hch)

lemma adjIn_unique_head {L : List (ℚ × ℕ)} {a : ℚ} {pa : ℕ} {b : ℚ} {pb : ℕ}
    (h : AdjIn L a pa b pb) :
    chainP L → ∀ x xs, L = x :: xs → x.1 = a →
      x.2 = pa ∧ ∃ y ys, xs = y :: ys ∧ y.1 = b ∧ y.2 = pb := by
  induction h with
  | head v1 p1 v2 p2 rest =>
      intro _ x xs hL hx
      injection hL with h1 h2
      subst h2
      rw [← h1]
      exact ⟨rfl, (v2, p2), rest, rfl, rfl, rfl⟩
  | tail y h' ih =>
      rename_i L2 va ppa vb ppb
      intro hch x xs hL hx
      injection hL with h1 h2
      obtain ⟨z, zs, hz⟩ := adjIn_shape h'
      have hza := adjIn_head_le h' (chainP_tail hch) z zs hz
      subst hz
      subst h2
      obtain ⟨vy, py⟩ := y
      obtain ⟨vz, pz⟩ := z
      have hyz : vy < vz := hch.1
      rw [← h1] at hx
      exact absurd hx (by simp only []; exact ne_of_lt (lt_of_lt_of_le hyz hza))

lemma battLoop_adj {L : List (ℚ × ℕ)} {a : ℚ} {pa : ℕ} {b : ℚ} {pb : ℕ}
    (h : AdjIn L a pa b pb) :
    ∀ v : ℚ, chainP L → a ≤ v → v ≤ b → battLoop v L = interpSeg v a b pa pb := by
  induction h with
  | head v1 p1 v2 p2 rest =>
      intro v hch hav hvb
      rw [battLoop_cons_cons, if_pos ⟨hav, hvb⟩]
  | tail x h' ih =>
      rename_i L2 va ppa vb ppb
      intro v hch hav hvb
      obtain ⟨z, zs, hz⟩ := adjIn_shape h'
      subst hz
      obtain ⟨x1, px⟩ := x
      obtain ⟨z1, pz⟩ := z
      obtain ⟨hxz, hpxz, hch2⟩ := hch
      have hza : z1 ≤ va := adjIn_head_le h' hch2 (z1, pz) zs rfl
      rw [battLoop_cons_cons]
      by_cases hcond : x1 ≤ v ∧ v ≤ z1
      · have hva : v = va := le_antisymm (le_trans hcond.2 hza) hav
        have hz1a : z1 = va := le_antisymm hza (hva ▸ hcond.2)
        obtain ⟨hpz_pa, y, ys, hys, hyb, hypb⟩ :=
          adjIn_unique_head h' hch2 (z1, pz) zs rfl hz1a
        rw [if_pos hcond]
        rw [show v = z1 from hva.trans hz1a.symm]
        rw [interpSeg_right x1 z1 px pz hxz]
        rw [show z1 = va from hz1a, interpSeg_left]
        exact hpz_pa
      · rw [if_neg hcond]
        exact ih v hch2 hav hvb

lemma battery_percent_adj (a : ℚ) (pa : ℕ) (b : ℚ) (pb : ℕ) (v : ℚ)
    (h : AdjIn batt_table a pa b pb) (hav : a ≤ v) (hvb : v ≤ b) :
    battery_percent v = interpSeg v a b pa pb := by
  have hha : (327 : ℚ)/100 ≤ a :=
    adjIn_head_le h chainP_batt ((327 : ℚ)/100, 0) _ rfl
  have hlast : lastVolt batt_table = 420/100 := rfl
  have hb4 : b ≤ 420/100 := hlast ▸ adjIn_le_last h chainP_batt
  have h1 : ¬ v < (batt_table.getD 0 (0, 0)).1 := by
    rw [show (batt_table.getD 0 (0, 0)).1 = 327/100 from rfl]
    exact not_lt.mpr (le_trans hha hav)
  have h2 : ¬ v > (batt_table.getD (batt_table.length - 1) (0, 0)).1 := by
    rw [show (batt_table.getD (batt_table.length - 1) (0, 0)).1 = 420/100 from rfl]
    exact not_lt.mpr (le_trans hvb hb4)
  unfold battery_percent
  rw [if_neg h1, if_neg h2]
  exact battLoop_adj h v chainP_batt hav hvb

lemma mem_adj : ∀ (L : List (ℚ × ℕ)) (x : ℚ × ℕ), x ∈ L → 2 ≤ L.length →
    ∃ a pa b pb, AdjIn L a pa b pb ∧
      ((x.1 = a ∧ x.2 = pa) ∨ (x.1 = b ∧ x.2 = pb)) := by
  intro L
  induction L with
  | nil => intro x hx _; simp at hx
  | cons y ys ih =>
      intro x hx hlen
      rcases List.mem_cons.mp hx with hxy | hx'
      · cases ys with
        | nil => simp at hlen
        | cons z zs =>
            obtain ⟨y1, py⟩ := y
            obtain ⟨z1, pz⟩ := z
            exact ⟨y1, py, z1, pz, AdjIn.head y1 py z1 pz zs,
              Or.inl (by rw [hxy]; exact ⟨rfl, rfl⟩)⟩
      · cases ys with
        | nil => simp at hx'
        | cons z zs =>
            cases zs with
            | nil =>
                have hz : x = z := by simpa using hx'
                obtain ⟨y1, py⟩ := y
                obtain ⟨z1, pz⟩ := z
                exact ⟨y1, py, z1, pz, AdjIn.head y1 py z1 pz [],
                  Or.inr (by rw [hz]; exact ⟨rfl, rfl⟩)⟩
            | cons w ws =>
                obtain ⟨a, pa, b, pb, hadj, hor⟩ := ih x hx' (by simp)
                exact ⟨a, pa, b, pb, AdjIn.tail y hadj, hor⟩

/-- C4 counterexample: between the anchors 3.27 V and 3.61 V, at 3.44 V the
computed percent is 2 while the exact linear interpolation of the anchor
percents is 5/2, so "percent equals the linear interpolation" is false as
stated (the code truncates via the uint8_t cast). -/
theorem c4_battery_curve_cx :
    battery_percent (344/100) = 2 ∧
    (0 : ℚ) + (344/100 - 327/100) * ((5 : ℚ) - 0) / (361/100 - 327/100) = 5/2 ∧
    ((2 : ℚ) ≠ 5/2) := by
  refine ⟨?_, by norm_num, by norm_num⟩
  unfold battery_percent
  rw [if_neg (by rw [show (batt_table.getD 0 (0, 0)).1 = 327/100 from rfl]; norm_num),
      if_neg (by
        rw [show (batt_table.getD (batt_table.length - 1) (0, 0)).1 = 420/100 from rfl]
        norm_num)]
  show battLoop (344/100) batt_table = 2
  unfold batt_table
  rw [battLoop_cons_cons,
      if_pos (by constructor <;> norm_num)]
  unfold interpSeg
  rw [show ((0 : ℕ) : ℚ) + (344/100 - 327/100) * (((5 : ℕ) : ℚ) - ((0 : ℕ) : ℚ)) /
        (361/100 - 327/100) = 5/2 by push_cast; norm_num]
  rw [show ⌊(5/2 : ℚ)⌋ = 2 by norm_num]
  rfl

/-- C4 (amended): percent is 0 below the lowest anchor and 100 above the
highest; at each anchor it equals that anchor exactly; between two adjacent
anchors it is the floor (integer truncation) of the linear interpolation of
their percents; and it is monotone non-decreasing in the voltage. -/
theorem c4_battery_curve :
    (∀ v : ℚ, v < 327/100 → battery_percent v = 0) ∧
    (∀ v : ℚ, 420/100 < v → battery_percent v = 100) ∧
    (∀ vp ∈ batt_table, battery_percent vp.1 = vp.2) ∧
    (∀ (a : ℚ) (pa : ℕ) (b : ℚ) (pb : ℕ) (v : ℚ),
      AdjIn batt_table a pa b pb → a ≤ v → v ≤ b →
      battery_percent v = interpSeg v a b pa pb) ∧
    (∀ v w : ℚ, v ≤ w → battery_percent v ≤ battery_percent w) := by
  refine ⟨?_, ?_, ?_, ?_, ?_⟩
  · intro v h
    unfold battery_percent
    rw [if_pos (show v < (batt_table.getD 0 (0, 0)).1 from h)]
    rfl
  · intro v h
    unfold battery_percent
    rw [if_neg (show ¬ v < (batt_table.getD 0 (0, 0)).1 by
          rw [show (batt_table.getD 0 (0, 0)).1 = 327/100 from rfl]
          exact not_lt.mpr (by linarith)),
        if_pos (show v > (batt_table.getD (batt_table.length - 1) (0, 0)).1 from h)]
    rfl
  · intro vp hmem
    obtain ⟨a, pa, b, pb, hadj, hor⟩ := mem_adj batt_table vp hmem (by norm_num [batt_table])
    obtain ⟨hab, hpab⟩ := adjIn_lt hadj chainP_batt
    rcases hor with ⟨h1, h2⟩ | ⟨h1, h2⟩
    · rw [h1, h2, battery_percent_adj a pa b pb a hadj (le_refl a) (le_of_lt hab)]
      exact interpSeg_left a b pa pb
    · rw [h1, h2, battery_percent_adj a pa b pb b hadj (le_of_lt hab) (le_refl b)]
      exact interpSeg_right a b pa pb hab
  · intro a pa b pb v hadj hav hvb
    exact battery_percent_adj a pa b pb v hadj hav hvb
  · intro v w hvw
    unfold battery_percent
    simp only [show (batt_table.getD 0 (0, 0)).1 = 327/100 from rfl,
      show (batt_table.getD 0 (0, 0)).2 = 0 from rfl,
      show (batt_table.getD (batt_table.length - 1) (0, 0)).1 = 420/100 from rfl,
      show (batt_table.getD (batt_table.length - 1) (0, 0)).2 = 100 from rfl]
    by_cases hv1 : v < 327/100
    · rw [if_pos hv1]
      exact Nat.zero_le _
    · rw [if_neg hv1]
      have hw1 : ¬ w < (327 : ℚ)/100 := fun hw => hv1 (lt_of_le_of_lt hvw hw)
      rw [if_neg hw1]
      by_cases hv2 : v > (420 : ℚ)/100
      · have hw2 : w > (420 : ℚ)/100 := lt_of_lt_of_le hv2 hvw
        rw [if_pos hv2, if_pos hw2]
      · rw [if_neg hv2]
        by_cases hw2 : w > (420 : ℚ)/100
        · rw [if_pos hw2]
          exact battLoop_ub v _ (327/100) 0 (361/100) 5 chainP_batt
        · rw [if_neg hw2]
          exact battLoop_mono v w hvw _ (327/100) 0 (361/100) 5 chainP_batt
            (not_lt.mp hv1) (not_lt.mp hw2)

theorem c4_battery_curve_witness :
    battery_percent 3 = 0 ∧
    battery_percent 5 = 100 ∧
    battery_percent (361/100) = 5 ∧
    battery_percent (344/100) = interpSeg (344/100) (327/100) (361/100) 0 5 ∧
    battery_percent (35/10) ≤ battery_percent 4 :=
  ⟨c4_battery_curve.1 3 (by norm_num),
   c4_battery_curve.2.1 5 (by norm_num),
   c4_battery_curve.2.2.1 (361/100, 5) (by norm_num [batt_table]),
   c4_battery_curve.2.2.2.1 (327/100) 0 (361/100) 5 (344/100)
     (by
       have : batt_table = ((327 : ℚ)/100, (0 : ℕ)) :: ((361 : ℚ)/100, (5 : ℕ)) ::
           [((369:ℚ)/100, (10:ℕ)), ((371:ℚ)/100, 15), ((373:ℚ)/100, 20),
            ((375:ℚ)/100, 25), ((377:ℚ)/100, 30), ((379:ℚ)/100, 35),
            ((380:ℚ)/100, 40), ((382:ℚ)/100, 45), ((384:ℚ)/100, 50),
            ((385:ℚ)/100, 55), ((387:ℚ)/100, 60), ((391:ℚ)/100, 65),
            ((395:ℚ)/100, 70), ((398:ℚ)/100, 75), ((402:ℚ)/100, 80),
            ((408:ℚ)/100, 85), ((411:ℚ)/100, 90), ((415:ℚ)/100, 95),
            ((420:ℚ)/100, 100)] := rfl
       rw [this]
       exact AdjIn.head _ _ _ _ _)
     (by norm_num) (by norm_num),
   c4_battery_curve.2.2.2.2 (35/10) 4 (by norm_num)⟩

/-! Low-battery cutoff. -/

lemma battery_percent_voltage_zero : battery_percent (battery_voltage 0) = 0 := by
  unfold battery_percent
  rw [if_pos (by
    rw [show (batt_table.getD 0 (0, 0)).1 = 327/100 from rfl]
    norm_num [battery_voltage])]
  rfl

/-- C3 counterexample: at reading 0 the percent is below the 5% threshold,
the cutoff branch of battery_check runs, yet the streaming flag of a
streaming state is left true: the C code never writes the flag. -/
theorem c3_low_battery_cutoff_cx :
    battery_percent (battery_voltage 0) < 5 ∧
    sysA.streaming = true ∧
    ¬ (battery_check 0 sysA).streaming = false := by
  refine ⟨by rw [battery_percent_voltage_zero]; norm_num, rfl, ?_⟩
  rw [battery_check_streaming]
  simp [sysA]

/-- C3 (amended): whenever the computed percent is below the 5% threshold,
battery_check stops the wireless host, stops hardware sampling, and raises
the low-battery indication (pixel 5 red); it does not modify the streaming
flag (or the counter), and no further packet can be produced afterwards
because sampling is halted. -/
theorem c3_low_battery_cutoff (s : Sys) (r : ℕ)
    (h : battery_percent (battery_voltage r) < 5) :
    (battery_check r s).bleRunning = false ∧
    (battery_check r s).adcRunning = false ∧
    (battery_check r s).pixels 5 = (RED, 10) ∧
    (battery_check r s).streaming = s.streaming ∧
    (battery_check r s).counter = s.counter ∧
    (∀ inp : CycleInput, (sysStep (battery_check r s) (.cycle inp)).2.1 = none) := by
  unfold battery_check set_pixel
  rw [if_pos h]
  refine ⟨rfl, rfl, by simp, rfl, rfl, ?_⟩
  intro inp
  simp [sysStep]

theorem c3_low_battery_cutoff_witness :
    battery_percent (battery_voltage 0) < 5 ∧
    (battery_check 0 sysA).adcRunning = false ∧
    (battery_check 0 sysA).bleRunning = false ∧
    (battery_check 0 sysA).streaming = sysA.streaming := by
  have h : battery_percent (battery_voltage 0) < 5 := by
    rw [battery_percent_voltage_zero]
    norm_num
  exact ⟨h, (c3_low_battery_cutoff sysA 0 h).2.1, (c3_low_battery_cutoff sysA 0 h).1,
    (c3_low_battery_cutoff sysA 0 h).2.2.2.1⟩

end NPG
